import Mathlib

/-!
A shallow embedding of the core of the ketos interpreter (value model,
numeric kernel, reader, scope system and selected system functions),
translated from `src/ketos/function.rs`, `src/ketos/parser.rs` and
`src/ketos/scope.rs`, together with proofs about the embedded operations.

Types defined in source files that are not part of the provided fragment
(`value.rs`, `integer.rs`, `name.rs`) are modelled from the specification,
as noted on each definition:

* `Integer` is an arbitrary-precision signed integer backed by the `num`
  crate's `BigInt` (`extern crate num` in `lib.rs`), modelled as `Int`.
  Its `/` and `%` are the standard (truncating, round-toward-zero)
  `BigInt` operations, modelled as `Int.tdiv` and `Int.tmod`.
* `Ratio` is an exact rational kept in lowest terms with positive
  denominator, modelled as `Rat` (which maintains the same normal form).
* `Name` is an interned identifier; interning makes handle equality
  equivalent to string equality, so names are modelled as their strings.
* `f64` is kept abstract: all operations are parametrised by a type `F`
  together with a `FloatOps F` instance providing the partial
  conversions (`to_f64`, returning `none` on overflow) and the total
  arithmetic used by the embedded functions.  Theorems quantified over
  `F` hold in particular for IEEE-754 binary64.
-/

namespace KetosModel

/-- Interned identifier.  Modelled from the spec: `name.rs` is not in the
provided sources; handle comparison is equivalent to string equality, so a
name is modelled by its string. -/
abbrev KName := String

/-- `usize::MAX` on the 64-bit platforms the interpreter targets; used by
the `to_usize` conversions of the arbitrary-precision integer type. -/
def USIZE_MAX : Nat := 2 ^ 64 - 1

/-- Execution error kinds surfaced by the embedded system functions,
from the execution-error taxonomy consumed by `function.rs`
(`exec.rs` is external; only the constructors used by the embedded
functions are modelled, and payloads that are type names or field names
are strings). -/
inductive ExecErr where
  | divideByZero
  | overflow
  | typeMismatch (lhs rhs : String)
  | expectedKind (kind found : String)
  | fieldError (structName field : KName)
  | fieldTypeError (structName field expected : KName) (found : String)
  | oddKeywordParams
  | outOfBounds (index : Nat)
  | invalidSlice (begin_ end_ : Nat)
  | notCharBoundary (index : Nat)
  deriving DecidableEq, Repr

/-- Abstract interface of the 64-bit IEEE float type.  `ofInt` and
`ofRatio` model `Integer::to_f64` and `Ratio::to_f64`, which return
`None` on overflow; the arithmetic operations are total, as `f64`
arithmetic is. -/
class FloatOps (F : Type) where
  fadd : F → F → F
  fsub : F → F → F
  fmul : F → F → F
  fdiv : F → F → F
  fpow : F → F → F
  ffloor : F → F
  ofInt : Int → Option F
  ofRatio : Rat → Option F
  /-- `f64` equality (`NaN` is unequal to everything, including itself). -/
  feq : F → F → Bool
  /-- Equality between a float and an exact rational, by mathematical
  value (used by `is_equal` on mixed numeric operands). -/
  feqRat : F → Rat → Bool
  /-- `partial_cmp` on floats: `none` when an operand is `NaN`. -/
  fcmp : F → F → Option Ordering
  /-- `partial_cmp` between a float and an exact rational. -/
  fcmpRat : F → Rat → Option Ordering

/-- A degenerate one-point instantiation of the float interface, used to
evaluate the embedding on concrete inputs whose behaviour does not
depend on float arithmetic. -/
instance : FloatOps Unit where
  fadd _ _ := ()
  fsub _ _ := ()
  fmul _ _ := ()
  fdiv _ _ := ()
  fpow _ _ := ()
  ffloor _ := ()
  ofInt _ := some ()
  ofRatio _ := some ()
  feq _ _ := true
  feqRat _ _ := true
  fcmp _ _ := some .eq
  fcmpRat _ _ := some .eq

/-- Record schema: name plus ordered `(field name, expected type name)`
pairs.  Modelled from the spec (`value.rs` is not in the provided
sources). -/
structure StructDefData where
  name : KName
  fields : List (KName × KName)
  deriving DecidableEq, Repr

/-- The runtime value universe.  Modelled from the spec: the `Value`
enum lives in `value.rs`, which is not in the provided sources; the
variants are those listed in the specification's data model.  Strings
are modelled as their character sequences so that byte-level operations
(UTF-8 lengths and boundaries) can be expressed.  A `lambda` is reduced
to the identity of its compiled code (compared by pointer identity) and
its optional enclosed values; its weak scope reference is not modelled.
A `foreign` value is reduced to its `type_name` capability. -/
inductive Value (F : Type) where
  | unit
  | unbound
  | bool (b : Bool)
  | float (f : F)
  | integer (i : Int)
  | ratio (r : Rat)
  | name (n : KName)
  | keyword (n : KName)
  | char (c : Char)
  | string (s : List Char)
  | list (vs : List (Value F))
  | struct (sdef : StructDefData) (fields : List (KName × Value F))
  | structDef (sdef : StructDefData)
  | function (name : KName)
  | lambda (code : Nat)
  | quote (v : Value F) (depth : Nat)
  | quasiquote (v : Value F) (depth : Nat)
  | comma (v : Value F) (depth : Nat)
  | commaAt (v : Value F) (depth : Nat)
  | foreign (typeName : KName)

/-- `Value::type_name`: the stable per-variant type name string.
Modelled from the spec (`value.rs` is not in the provided sources); the
reader meta-forms report `"object"`, as in `type_of`. -/
def Value.typeName {F : Type} : Value F → String
  | .unit => "unit"
  | .unbound => "unbound"
  | .bool _ => "bool"
  | .float _ => "float"
  | .integer _ => "integer"
  | .ratio _ => "ratio"
  | .name _ => "name"
  | .keyword _ => "keyword"
  | .char _ => "char"
  | .string _ => "string"
  | .list _ => "list"
  | .struct _ _ => "struct"
  | .structDef _ => "struct-def"
  | .function _ => "function"
  | .lambda _ => "lambda"
  | .quote _ _ => "object"
  | .quasiquote _ _ => "object"
  | .comma _ _ => "object"
  | .commaAt _ _ => "object"
  | .foreign t => t

/-- Conversion of a vector of values into a `Value` (Rust's
`Vec<Value>::into()`): the empty vector yields `Unit`, maintaining the
invariant that a `List` is never empty. -/
def valueOfVec {F : Type} (vs : List (Value F)) : Value F :=
  match vs with
  | [] => .unit
  | vs => .list vs

/-- UTF-8 byte length of a string modelled as its character sequence;
`str::len()` in the source. -/
def byteLen (s : List Char) : Nat :=
  (s.map Char.utf8Size).sum

/-! ## Numeric kernel (`function.rs`, with the `Integer`/`Ratio`
operations of `integer.rs` modelled from the spec) -/

/-- `Ratio::new(a, b)`: builds the normalised rational `a / b`.  The
callers in `function.rs` guard the zero denominator with `test_zero`
before constructing. -/
def ratioNew (a b : Int) : Rat :=
  (a : Rat) / (b : Rat)

/-- `Integer::is_multiple_of`, the `num` crate's remainder-is-zero test
(modelled from the spec: `integer.rs` is not in the provided sources). -/
def isMultipleOf (a b : Int) : Bool :=
  a.tmod b == 0

/-- `Integer::to_usize`: succeeds exactly when the value fits in a
64-bit `usize` (modelled from the spec: conversions to machine types
return `Option` on overflow). -/
def toUsize (n : Int) : Option Nat :=
  if 0 ≤ n ∧ n ≤ (USIZE_MAX : Int) then some n.toNat else none

/-- `expect_number` from `function.rs`. -/
def expectNumber {F : Type} (v : Value F) : Except ExecErr Unit :=
  match v with
  | .float _ => .ok ()
  | .integer _ => .ok ()
  | .ratio _ => .ok ()
  | v => .error (.expectedKind "number" v.typeName)

/-- `coerce_numbers` from `function.rs`: pairwise coercion of mixed
numeric operands.  The `Cow` in the Rust return type only avoids
cloning; the model returns the pair of coerced values.  Non-numeric
operands pass through unchanged (the callers' match arms then report
`TypeMismatch`). -/
def coerceNumbers {F : Type} [FloatOps F] (lhs rhs : Value F) :
    Except ExecErr (Value F × Value F) :=
  match lhs, rhs with
  | .float a, .float b => .ok (.float a, .float b)
  | .integer a, .integer b => .ok (.integer a, .integer b)
  | .ratio a, .ratio b => .ok (.ratio a, .ratio b)
  | .float a, .integer i =>
      match FloatOps.ofInt (F := F) i with
      | some f => .ok (.float a, .float f)
      | none => .error .overflow
  | .integer i, .float b =>
      match FloatOps.ofInt (F := F) i with
      | some f => .ok (.float f, .float b)
      | none => .error .overflow
  | .ratio a, .integer i => .ok (.ratio a, .ratio (i : Rat))
  | .integer i, .ratio b => .ok (.ratio (i : Rat), .ratio b)
  | .float a, .ratio r =>
      match FloatOps.ofRatio (F := F) r with
      | some f => .ok (.float a, .float f)
      | none => .error .overflow
  | .ratio r, .float b =>
      match FloatOps.ofRatio (F := F) r with
      | some f => .ok (.float f, .float b)
      | none => .error .overflow
  | a, b => .ok (a, b)

/-- `div_number` from `function.rs`: the division primitive on a pair of
coerced operands.  For two integers, the divisor is checked against
zero, then an exact quotient yields an `Integer` (`BigInt` division,
exact in this case) and an inexact one the exact `Ratio`. -/
def div_number {F : Type} [FloatOps F] (lhs rhs : Value F) :
    Except ExecErr (Value F) := do
  let (lhs, rhs) ← coerceNumbers lhs rhs
  match lhs, rhs with
  | .float a, .float b => .ok (.float (FloatOps.fdiv a b))
  | .integer a, .integer b =>
      if b == 0 then .error .divideByZero
      else if isMultipleOf a b then .ok (.integer (a.tdiv b))
      else .ok (.ratio (ratioNew a b))
  | .ratio a, .ratio b =>
      if b == 0 then .error .divideByZero
      else .ok (.ratio (a / b))
  | a, b => .error (.typeMismatch a.typeName b.typeName)

/-- `floor_div_number_step` from `function.rs`: one step of cumulative
floor division, "without calling `floor` on the result".  Two integers
are divided by the `Integer` division (`num::BigInt` `/`, which rounds
toward zero); any other pair falls through to `div_number`. -/
def floor_div_number_step {F : Type} [FloatOps F] (lhs rhs : Value F) :
    Except ExecErr (Value F) := do
  let (lhs, rhs) ← coerceNumbers lhs rhs
  match lhs, rhs with
  | .integer a, .integer b =>
      if b == 0 then .error .divideByZero
      else .ok (.integer (a.tdiv b))
  | lhs, rhs => div_number lhs rhs

/-- `floor_number` from `function.rs`: rounds a value toward negative
infinity.  An `Integer` is returned unchanged; a `Ratio` is floored but
stays a `Ratio` value. -/
def floor_number {F : Type} [FloatOps F] (v : Value F) :
    Except ExecErr (Value F) :=
  match v with
  | .float f => .ok (.float (FloatOps.ffloor f))
  | .integer i => .ok (.integer i)
  | .ratio r => .ok (.ratio ((⌊r⌋ : Int) : Rat))
  | v => .error (.expectedKind "number" v.typeName)

/-- The argument-folding loop of `fn_floor_div`. -/
def floorDivLoop {F : Type} [FloatOps F] (v : Value F) :
    List (Value F) → Except ExecErr (Value F)
  | [] => .ok v
  | arg :: rest => do
      let _ ← expectNumber arg
      let v' ← floor_div_number_step v arg
      floorDivLoop v' rest

/-- `fn_floor_div` (the `//` primitive, arity `Min(1)`): cumulative
quotient of successive arguments; the dispatcher guarantees at least one
argument, so the argument slice is modelled as first element plus
rest. -/
def fn_floor_div {F : Type} [FloatOps F] (v0 : Value F)
    (rest : List (Value F)) : Except ExecErr (Value F) := do
  let _ ← expectNumber v0
  let v ← floorDivLoop v0 rest
  floor_number v

/-- The argument-folding loop of `fn_div`. -/
def divLoop {F : Type} [FloatOps F] (v : Value F) :
    List (Value F) → Except ExecErr (Value F)
  | [] => .ok v
  | arg :: rest => do
      let _ ← expectNumber arg
      let v' ← div_number v arg
      divLoop v' rest

/-- `fn_div` (the `/` primitive, arity `Min(1)`). -/
def fn_div {F : Type} [FloatOps F] (v0 : Value F)
    (rest : List (Value F)) : Except ExecErr (Value F) := do
  let _ ← expectNumber v0
  divLoop v0 rest

/-- `pow_ratio_integer` from `function.rs`: a `Ratio` base raised to an
`Integer` exponent.  A negative exponent converts both operands to
float and uses `powf`; a non-negative one is converted to `usize`
(failing with `Overflow` when it does not fit) and the exact
`Ratio::new(numer^n, denom^n)` is produced. -/
def pow_ratio_integer {F : Type} [FloatOps F] (lhs : Rat) (rhs : Int) :
    Except ExecErr (Value F) :=
  if rhs < 0 then
    match FloatOps.ofRatio (F := F) lhs with
    | none => .error .overflow
    | some lf =>
        match FloatOps.ofInt (F := F) rhs with
        | none => .error .overflow
        | some rf => .ok (.float (FloatOps.fpow lf rf))
  else
    match toUsize rhs with
    | none => .error .overflow
    | some exp => .ok (.ratio (ratioNew (lhs.num ^ exp) ((lhs.den : Int) ^ exp)))

/-- The fall-through part of `pow_number` after its first match:
coercion followed by the per-type dispatch, with integer bases using
exact `pow` for non-negative exponents and `powf` otherwise. -/
def pow_number_general {F : Type} [FloatOps F] (lhs rhs : Value F) :
    Except ExecErr (Value F) := do
  let (lhs, rhs) ← coerceNumbers lhs rhs
  match lhs, rhs with
  | .float a, .float b => .ok (.float (FloatOps.fpow a b))
  | .integer a, .integer b =>
      if b < 0 then
        match FloatOps.ofInt (F := F) a with
        | none => .error .overflow
        | some af =>
            match FloatOps.ofInt (F := F) b with
            | none => .error .overflow
            | some bf => .ok (.float (FloatOps.fpow af bf))
      else
        match toUsize b with
        | none => .error .overflow
        | some exp => .ok (.integer (a ^ exp))
  | .ratio a, .ratio b =>
      match FloatOps.ofRatio (F := F) a with
      | none => .error .overflow
      | some af =>
          match FloatOps.ofRatio (F := F) b with
          | none => .error .overflow
          | some bf => .ok (.float (FloatOps.fpow af bf))
  | a, b => .error (.typeMismatch a.typeName b.typeName)

/-- `pow_number` from `function.rs`: the `^` primitive's kernel.  A
`Ratio` base with an `Integer` (or integer-valued `Ratio`) exponent is
handled exactly by `pow_ratio_integer`; every other pair falls through
to coercion and per-type dispatch. -/
def pow_number {F : Type} [FloatOps F] (lhs rhs : Value F) :
    Except ExecErr (Value F) :=
  match lhs, rhs with
  | .ratio a, .integer b => pow_ratio_integer a b
  | .ratio a, .ratio b =>
      if b.isInt then pow_ratio_integer a b.num
      else pow_number_general (.ratio a) (.ratio b)
  | lhs, rhs => pow_number_general lhs rhs

/-- `fn_pow` (the `^` primitive, arity `Exact(2)`). -/
def fn_pow {F : Type} [FloatOps F] (a b : Value F) :
    Except ExecErr (Value F) := do
  let _ ← expectNumber a
  let _ ← expectNumber b
  pow_number a b

/-! ## Reader (`parser.rs`) -/

/-- Parse error kinds (`ParseErrorKind` in `parser.rs`).  Spans are byte
ranges produced by the lexer and are not modelled; `parse_expr` attaches
the current token's span to whichever kind it produces. -/
inductive ParseErrKind where
  | invalidLiteral
  | invalidToken
  | literalParseError
  | missingCloseParen
  | unbalancedComma
  | unexpectedEof
  | unexpectedToken (expected found : String)
  | unmatchedParen
  deriving DecidableEq, Repr

/-- Lexer tokens consumed by `parse_expr`.  In the source the literal
tokens carry their lexeme strings and `parse_expr` interprets them via
`parse_float`/`parse_integer`/`parse_ratio`/`parse_char`/`parse_string`;
that literal-interpretation layer is not under verification here, so the
model's literal tokens carry the already-interpreted payloads and
convert to values directly.  `DocComment` tokens are `unreachable!()`
inside `parse_expr` (callers filter them) and are omitted. -/
inductive Token (F : Type) where
  | leftParen
  | rightParen
  | float (f : F)
  | integer (i : Int)
  | ratio (r : Rat)
  | char (c : Char)
  | string (s : List Char)
  | name (n : String)
  | keyword (n : String)
  | backQuote
  | comma
  | commaAt
  | quote
  | ending

/-- The reader's group stack entries (`enum Group` in `parser.rs`).
For `backticks`, positive counts backticks and negative counts commas;
`parens` accumulates the values of a parenthesised expression. -/
inductive PGroup (F : Type) where
  | backticks (n : Int)
  | commaAt
  | quotes (n : Nat)
  | parens (vs : List (Value F))

/-- Whether a group-stack entry is a `Parens` group (the `End` token's
check in `parse_expr`). -/
def PGroup.isParens {F : Type} : PGroup F → Bool
  | .parens _ => true
  | _ => false

/-- Result of settling a completed value into the group stack. -/
inductive Settled (F : Type) where
  | done (v : Value F)
  | more (stack : List (PGroup F)) (tb : Int)

/-- The inner loop of `parse_expr`: a completed value `v` is folded into
the group stack (the stack's head is its top).  A `Parens` group
receives the value and the loop stops; an empty stack returns the
value; quoting groups wrap the value (`Value::quasiquote`,
`Value::comma`, `Value::comma_at`, `Value::quote` — modelled from the
spec as wrapping in the meta-form variant with the given depth), adjust
`total_backticks`, and the loop continues.  A `Backticks(0)` group is
dropped without wrapping. -/
def settleValue {F : Type} (v : Value F) :
    List (PGroup F) → Int → Settled F
  | [], _tb => .done v
  | .parens vs :: rest, tb => .more (.parens (vs ++ [v]) :: rest) tb
  | .backticks n :: rest, tb =>
      if n > 0 then settleValue (.quasiquote v n.toNat) rest (tb - n)
      else if n < 0 then settleValue (.comma v (-n).toNat) rest (tb - n)
      else settleValue v rest tb
  | .commaAt :: rest, tb => settleValue (.commaAt v 1) rest (tb + 1)
  | .quotes n :: rest, tb => settleValue (.quote v n) rest tb

/-- The `End` arm of `parse_expr`: with any `Parens` group still on the
stack the error is `MissingCloseParen`, otherwise `UnexpectedEof`. -/
def endResult {F : Type} (stack : List (PGroup F)) :
    Except ParseErrKind (Value F × List (Token F)) :=
  if stack.any PGroup.isParens then .error .missingCloseParen
  else .error .unexpectedEof

/-- `Name` tokens: `true`/`false` become `Bool` values, any other name
is interned (names are modelled as their strings). -/
def nameValue {F : Type} (n : String) : Value F :=
  match n with
  | "true" => .bool true
  | "false" => .bool false
  | n => .name n

/-- The main loop of `Parser::parse_expr`, iterating over the token
stream with the group stack and the running `total_backticks` counter as
state.  The lexer yields `End` at end of input, so an exhausted token
list behaves as `End`.  On success the value and the unconsumed tokens
are returned. -/
def parseLoop {F : Type} :
    List (Token F) → List (PGroup F) → Int →
    Except ParseErrKind (Value F × List (Token F))
  | [], stack, _tb => endResult stack
  | .ending :: _, stack, _tb => endResult stack
  | .leftParen :: rest, stack, tb =>
      parseLoop rest (.parens [] :: stack) tb
  | .rightParen :: rest, stack, tb =>
      match stack with
      | [] => .error .unmatchedParen
      | .parens vs :: stack' =>
          match settleValue (valueOfVec vs) stack' tb with
          | .done v => .ok (v, rest)
          | .more stack'' tb' => parseLoop rest stack'' tb'
      | _ :: _ => .error (.unexpectedToken "expression" ")")
  | .backQuote :: rest, stack, tb =>
      match stack with
      | .backticks n :: stack' =>
          parseLoop rest (.backticks (n + 1) :: stack') (tb + 1)
      | stack => parseLoop rest (.backticks 1 :: stack) (tb + 1)
  | .comma :: rest, stack, tb =>
      if tb ≤ 0 then .error .unbalancedComma
      else
        match stack with
        | .backticks n :: stack' =>
            parseLoop rest (.backticks (n - 1) :: stack') (tb - 1)
        | stack => parseLoop rest (.backticks (-1) :: stack) (tb - 1)
  | .commaAt :: rest, stack, tb =>
      if tb ≤ 0 then .error .unbalancedComma
      else parseLoop rest (.commaAt :: stack) (tb - 1)
  | .quote :: rest, stack, tb =>
      match stack with
      | .quotes n :: stack' =>
          parseLoop rest (.quotes (n + 1) :: stack') tb
      | stack => parseLoop rest (.quotes 1 :: stack) tb
  | .float f :: rest, stack, tb =>
      match settleValue (Value.float f) stack tb with
      | .done v => .ok (v, rest)
      | .more stack' tb' => parseLoop rest stack' tb'
  | .integer i :: rest, stack, tb =>
      match settleValue (Value.integer i) stack tb with
      | .done v => .ok (v, rest)
      | .more stack' tb' => parseLoop rest stack' tb'
  | .ratio r :: rest, stack, tb =>
      match settleValue (Value.ratio r) stack tb with
      | .done v => .ok (v, rest)
      | .more stack' tb' => parseLoop rest stack' tb'
  | .char c :: rest, stack, tb =>
      match settleValue (Value.char c) stack tb with
      | .done v => .ok (v, rest)
      | .more stack' tb' => parseLoop rest stack' tb'
  | .string s :: rest, stack, tb =>
      match settleValue (Value.string s) stack tb with
      | .done v => .ok (v, rest)
      | .more stack' tb' => parseLoop rest stack' tb'
  | .name n :: rest, stack, tb =>
      match settleValue (nameValue n) stack tb with
      | .done v => .ok (v, rest)
      | .more stack' tb' => parseLoop rest stack' tb'
  | .keyword n :: rest, stack, tb =>
      match settleValue (Value.keyword n) stack tb with
      | .done v => .ok (v, rest)
      | .more stack' tb' => parseLoop rest stack' tb'

/-- `Parser::parse_expr`: parses one expression from the token stream,
starting from an empty group stack and `total_backticks = 0`. -/
def parseExpr {F : Type} (toks : List (Token F)) :
    Except ParseErrKind (Value F × List (Token F)) :=
  parseLoop toks [] 0

/-! ## Scope and namespaces (`scope.rs`, with `NameMap` modelled from
the spec) -/

/-- `NameMap<V>`: ordered associative container keyed by `Name`,
preserving insertion order.  Modelled from the spec (`name.rs` is not in
the provided sources) as an association list without duplicate keys:
lookup finds the first matching key, and insertion replaces the value of
an existing key in place or appends a new binding. -/
abbrev NameMap (V : Type) := List (KName × V)

/-- `NameMap::get`. -/
def nmGet {V : Type} (m : NameMap V) (k : KName) : Option V :=
  match m with
  | [] => none
  | (k', v) :: rest => if k' == k then some v else nmGet rest k

/-- `NameMap::insert` / `NameMap::set`: last-write-wins, keeping the
original position of an existing key. -/
def nmInsert {V : Type} (m : NameMap V) (k : KName) (v : V) : NameMap V :=
  match m with
  | [] => [(k, v)]
  | (k', v') :: rest =>
      if k' == k then (k, v) :: rest else (k', v') :: nmInsert rest k v

/-- `NameMap::contains_key`. -/
def nmContains {V : Type} (m : NameMap V) (k : KName) : Bool :=
  (nmGet m k).isSome

/-- `ImportSet` from `scope.rs`: module name plus `(source, local)`
renaming pairs for constants, macros and values. -/
structure ImportSet where
  moduleName : KName
  constants : List (KName × KName)
  macros : List (KName × KName)
  values : List (KName × KName)

/-- `Namespace` from `scope.rs`: the per-module triple of maps plus the
optional exports set and pending imports.  The payload types of the
three maps are parameters (`Value`, `Lambda` and `Value` in the source);
the import claims hold for any payloads. -/
structure KNamespace (C M V : Type) where
  constants : NameMap C
  macros : NameMap M
  values : NameMap V
  exports : Option (List KName)
  imports : List ImportSet

/-- The shared per-name loop of `Namespace::import_all_constants`,
`import_all_macros` and `import_all_values` (the three source functions
are textually identical up to the map they touch): iterate the source
namespace's exports in order, and for each exported name present in the
source map, record the name and insert the binding into the target
map.  Names absent from the source map are silently skipped. -/
def importLoop {V : Type} (src : NameMap V) (tgt : NameMap V)
    (names : List KName) : List KName → NameMap V × List KName
  | [] => (tgt, names)
  | n :: ns =>
      match nmGet src n with
      | some v => importLoop src (nmInsert tgt n v) (names ++ [n]) ns
      | none => importLoop src tgt names ns

/-- `Namespace::import_all_constants`: clones the other namespace's
exported constants into this one, returning the imported names.  With no
exports set (`None`), nothing is imported. -/
def importAllConstants {C M V : Type} (self other : KNamespace C M V) :
    KNamespace C M V × List KName :=
  match other.exports with
  | none => (self, [])
  | some exps =>
      ({ self with
          constants := (importLoop other.constants self.constants [] exps).1 },
       (importLoop other.constants self.constants [] exps).2)

/-- `Namespace::import_all_macros`. -/
def importAllMacros {C M V : Type} (self other : KNamespace C M V) :
    KNamespace C M V × List KName :=
  match other.exports with
  | none => (self, [])
  | some exps =>
      ({ self with
          macros := (importLoop other.macros self.macros [] exps).1 },
       (importLoop other.macros self.macros [] exps).2)

/-- `Namespace::import_all_values`. -/
def importAllValues {C M V : Type} (self other : KNamespace C M V) :
    KNamespace C M V × List KName :=
  match other.exports with
  | none => (self, [])
  | some exps =>
      ({ self with
          values := (importLoop other.values self.values [] exps).1 },
       (importLoop other.values self.values [] exps).2)

/-! ## Value equality, ordering, and the chained comparison primitives
(`fn_eq` .. `fn_ge` from `function.rs`; `Value::is_equal` and
`Value::compare` modelled from the spec, as `value.rs` is not in the
provided sources) -/

/-- Lexicographic ordering of character sequences (`str` ordering). -/
def lexCompare : List Char → List Char → Ordering
  | [], [] => .eq
  | [], _ :: _ => .lt
  | _ :: _, [] => .gt
  | a :: as_, b :: bs =>
      match compare a b with
      | .eq => lexCompare as_ bs
      | o => o

mutual

/-- `Value::is_equal`: structural equality with strict type discipline.
Modelled from the spec: comparing values of different variants fails
with `TypeMismatch`, except that the three numeric variants compare by
mathematical value (float comparisons go through the abstract float
interface, under which `NaN` is unequal to everything).  `Unit` is the
empty list, so it compares (unequal) with non-empty lists rather than
failing.  Equality on struct, struct-def, function, lambda and foreign
values is identity- or host-based and is not needed by any claim; those
same-variant cases are left on the mismatch branch of the model. -/
def isEqual {F : Type} [FloatOps F] : Value F → Value F → Except ExecErr Bool
  | .float a, .float b => .ok (FloatOps.feq a b)
  | .float a, .integer b => .ok (FloatOps.feqRat a (b : Rat))
  | .float a, .ratio b => .ok (FloatOps.feqRat a b)
  | .integer a, .float b => .ok (FloatOps.feqRat b (a : Rat))
  | .ratio a, .float b => .ok (FloatOps.feqRat b a)
  | .integer a, .integer b => .ok (a == b)
  | .integer a, .ratio b => .ok ((a : Rat) == b)
  | .ratio a, .integer b => .ok (a == (b : Rat))
  | .ratio a, .ratio b => .ok (a == b)
  | .unit, .unit => .ok true
  | .unit, .list _ => .ok false
  | .list _, .unit => .ok false
  | .bool a, .bool b => .ok (a == b)
  | .name a, .name b => .ok (a == b)
  | .keyword a, .keyword b => .ok (a == b)
  | .char a, .char b => .ok (a == b)
  | .string a, .string b => .ok (a == b)
  | .list a, .list b => isEqualList a b
  | .quote a n, .quote b m =>
      if n == m then isEqual a b else .ok false
  | .quasiquote a n, .quasiquote b m =>
      if n == m then isEqual a b else .ok false
  | .comma a n, .comma b m =>
      if n == m then isEqual a b else .ok false
  | .commaAt a n, .commaAt b m =>
      if n == m then isEqual a b else .ok false
  | a, b => .error (.typeMismatch a.typeName b.typeName)

/-- Elementwise equality of list payloads; lists of different lengths
are unequal. -/
def isEqualList {F : Type} [FloatOps F] :
    List (Value F) → List (Value F) → Except ExecErr Bool
  | [], [] => .ok true
  | a :: as_, b :: bs => do
      let e ← isEqual a b
      if e then isEqualList as_ bs else .ok false
  | _, _ => .ok false

end

/-- `Value::compare`: total ordering within a type.  Modelled from the
spec: ordering across heterogeneous types fails with `TypeMismatch`;
the numeric variants interoperate by mathematical value; an ordered
float comparison involving `NaN` fails (the abstract comparison returns
`none`). -/
def compareVal {F : Type} [FloatOps F] :
    Value F → Value F → Except ExecErr Ordering
  | .float a, .float b =>
      match FloatOps.fcmp a b with
      | some o => .ok o
      | none => .error (.typeMismatch "float" "float")
  | .float a, .integer b =>
      match FloatOps.fcmpRat a (b : Rat) with
      | some o => .ok o
      | none => .error (.typeMismatch "float" "integer")
  | .float a, .ratio b =>
      match FloatOps.fcmpRat a b with
      | some o => .ok o
      | none => .error (.typeMismatch "float" "ratio")
  | .integer a, .float b =>
      match FloatOps.fcmpRat b (a : Rat) with
      | some o => .ok o.swap
      | none => .error (.typeMismatch "integer" "float")
  | .ratio a, .float b =>
      match FloatOps.fcmpRat b a with
      | some o => .ok o.swap
      | none => .error (.typeMismatch "ratio" "float")
  | .integer a, .integer b => .ok (compare a b)
  | .integer a, .ratio b => .ok (compare (a : Rat) b)
  | .ratio a, .integer b => .ok (compare a (b : Rat))
  | .ratio a, .ratio b => .ok (compare a b)
  | .bool a, .bool b => .ok (compare a b)
  | .char a, .char b => .ok (compare a b)
  | .string a, .string b => .ok (lexCompare a b)
  | a, b => .error (.typeMismatch a.typeName b.typeName)

/-- The loop of `fn_eq`: note that the source compares every later
argument against the first (`v` is never advanced). -/
def eqLoop {F : Type} [FloatOps F] (v : Value F) :
    List (Value F) → Except ExecErr Bool
  | [] => .ok true
  | arg :: rest => do
      let e ← isEqual v arg
      if e then eqLoop v rest else .ok false

/-- `fn_eq` (the `=` primitive, arity `Min(2)`): whether the arguments
all compare equal to the first; stops at the first unequal pair. -/
def fn_eq {F : Type} [FloatOps F] (v0 : Value F) (rest : List (Value F)) :
    Except ExecErr (Value F) := do
  let b ← eqLoop v0 rest
  .ok (.bool b)

/-- The inner loop of `fn_ne`: whether `v` differs from every element;
stops (false) at the first equal pair. -/
def neInner {F : Type} [FloatOps F] (v : Value F) :
    List (Value F) → Except ExecErr Bool
  | [] => .ok true
  | arg :: rest => do
      let e ← isEqual v arg
      if e then .ok false else neInner v rest

/-- The outer loop of `fn_ne`, iterating the pairs in the source's
order: `(0,1), (0,2), …, (1,2), …`. -/
def neOuter {F : Type} [FloatOps F] :
    List (Value F) → Except ExecErr Bool
  | [] => .ok true
  | a :: rest => do
      let b ← neInner a rest
      if b then neOuter rest else .ok false

/-- `fn_ne` (the `/=` primitive, arity `Min(2)`): pairwise inequality
across all pairs; stops at the first equal pair. -/
def fn_ne {F : Type} [FloatOps F] (v0 : Value F) (rest : List (Value F)) :
    Except ExecErr (Value F) := do
  let b ← neOuter (v0 :: rest)
  .ok (.bool b)

/-- The chain loop of `fn_lt`: each element must compare `Less` than its
successor; stops at the first pair that does not. -/
def ltLoop {F : Type} [FloatOps F] (v : Value F) :
    List (Value F) → Except ExecErr Bool
  | [] => .ok true
  | arg :: rest => do
      let o ← compareVal v arg
      if o != Ordering.lt then .ok false else ltLoop arg rest

/-- `fn_lt` (the `<` primitive, arity `Min(2)`). -/
def fn_lt {F : Type} [FloatOps F] (v0 : Value F) (rest : List (Value F)) :
    Except ExecErr (Value F) := do
  let b ← ltLoop v0 rest
  .ok (.bool b)

/-- The chain loop of `fn_gt`. -/
def gtLoop {F : Type} [FloatOps F] (v : Value F) :
    List (Value F) → Except ExecErr Bool
  | [] => .ok true
  | arg :: rest => do
      let o ← compareVal v arg
      if o != Ordering.gt then .ok false else gtLoop arg rest

/-- `fn_gt` (the `>` primitive, arity `Min(2)`). -/
def fn_gt {F : Type} [FloatOps F] (v0 : Value F) (rest : List (Value F)) :
    Except ExecErr (Value F) := do
  let b ← gtLoop v0 rest
  .ok (.bool b)

/-- The chain loop of `fn_le`: fails the chain only on `Greater`. -/
def leLoop {F : Type} [FloatOps F] (v : Value F) :
    List (Value F) → Except ExecErr Bool
  | [] => .ok true
  | arg :: rest => do
      let o ← compareVal v arg
      if o == Ordering.gt then .ok false else leLoop arg rest

/-- `fn_le` (the `<=` primitive, arity `Min(2)`). -/
def fn_le {F : Type} [FloatOps F] (v0 : Value F) (rest : List (Value F)) :
    Except ExecErr (Value F) := do
  let b ← leLoop v0 rest
  .ok (.bool b)

/-- The chain loop of `fn_ge`: fails the chain only on `Less`. -/
def geLoop {F : Type} [FloatOps F] (v : Value F) :
    List (Value F) → Except ExecErr Bool
  | [] => .ok true
  | arg :: rest => do
      let o ← compareVal v arg
      if o == Ordering.lt then .ok false else geLoop arg rest

/-- `fn_ge` (the `>=` primitive, arity `Min(2)`). -/
def fn_ge {F : Type} [FloatOps F] (v0 : Value F) (rest : List (Value F)) :
    Except ExecErr (Value F) := do
  let b ← geLoop v0 rest
  .ok (.bool b)

/-! ## Struct update (`fn_dot_eq` from `function.rs`) -/

/-- `type_of` from `function.rs`: the standard type name of a value
(names are modelled as their strings; a foreign value reports its
`type_name` capability, which `type_of` interns). -/
def type_of {F : Type} : Value F → KName
  | .unit => "unit"
  | .unbound => "unbound"
  | .bool _ => "bool"
  | .float _ => "float"
  | .integer _ => "integer"
  | .ratio _ => "ratio"
  | .struct _ _ => "struct"
  | .structDef _ => "struct-def"
  | .name _ => "name"
  | .keyword _ => "keyword"
  | .char _ => "char"
  | .string _ => "string"
  | .list _ => "list"
  | .function _ => "function"
  | .lambda _ => "lambda"
  | .quasiquote _ _ => "object"
  | .comma _ _ => "object"
  | .commaAt _ _ => "object"
  | .quote _ _ => "object"
  | .foreign t => t

/-- `value_is` from `function.rs`: whether a value matches a type name;
`number` matches any numeric variant and `list` matches `Unit` as well
as `List`.  A foreign value consults its host `is_type` capability
(modelled as type-name equality). -/
def value_is {F : Type} (v : Value F) (ty : KName) : Bool :=
  match v with
  | .float _ => if ty == "number" then true else type_of v == ty
  | .integer _ => if ty == "number" then true else type_of v == ty
  | .ratio _ => if ty == "number" then true else type_of v == ty
  | .unit => if ty == "list" then true else type_of v == ty
  | .list _ => if ty == "list" then true else type_of v == ty
  | .foreign t => t == ty
  | v => type_of v == ty

/-- `get_keyword` from `function.rs`. -/
def getKeyword {F : Type} (v : Value F) : Except ExecErr KName :=
  match v with
  | .keyword n => .ok n
  | v => .error (.expectedKind "keyword" v.typeName)

/-- The keyword/value pair loop of `fn_dot_eq`, acting on the mutable
copy obtained by `Rc::make_mut` (copy-on-write): for each `:key value`
pair, the key must name an existing field, its declared type must
accept the new value, and the field map is updated in place. -/
def dotEqLoop {F : Type} (sdef : StructDefData)
    (fields : NameMap (Value F)) :
    List (Value F) → Except ExecErr (Value F)
  | [] => .ok (.struct sdef fields)
  | nameArg :: rest => do
      let name ← getKeyword nameArg
      match rest with
      | [] => .error .oddKeywordParams
      | value :: rest' =>
          if !(nmContains fields name) then
            .error (.fieldError sdef.name name)
          else
            match nmGet sdef.fields name with
            | some ty =>
                if !(value_is value ty) then
                  .error (.fieldTypeError sdef.name name ty value.typeName)
                else
                  dotEqLoop sdef (nmInsert fields name value) rest'
            | none => .error (.fieldError sdef.name name)

/-- `fn_dot_eq` (the `.=` primitive, arity `Min(1)`): assigns values to
one or more fields of a struct value, producing a new struct that
shares the definition; the original record is untouched (the source
copies the shared record on write via `Rc::make_mut`). -/
def fn_dot_eq {F : Type} (v0 : Value F) (rest : List (Value F)) :
    Except ExecErr (Value F) :=
  match v0 with
  | .struct sdef fields => dotEqLoop sdef fields rest
  | v => .error (.expectedKind "struct" v.typeName)

/-! ## Sequence primitives (`fn_len`, `fn_slice`, `fn_first`, `fn_last`
from `function.rs`) -/

/-- `usize::from_value_ref`: extraction of a `usize` argument from an
`Integer` value.  Modelled from the spec (`value.rs` is not in the
provided sources): conversion to the machine type fails with `Overflow`
when the integer is negative or exceeds `usize::MAX`; a non-integer
argument is a type error. -/
def usizeFromValue {F : Type} (v : Value F) : Except ExecErr Nat :=
  match v with
  | .integer n =>
      match toUsize n with
      | some u => .ok u
      | none => .error .overflow
  | v => .error (.expectedKind "integer" v.typeName)

/-- `fn_len` (the `len` primitive, arity `Exact(1)`): `Unit` has length
zero, a list its element count, a string its byte length. -/
def fn_len {F : Type} (v0 : Value F) : Except ExecErr (Value F) :=
  match v0 with
  | .unit => .ok (.integer 0)
  | .list li => .ok (.integer li.length)
  | .string s => .ok (.integer (byteLen s))
  | v => .error (.expectedKind "list" v.typeName)

/-- `is_char_boundary` from `function.rs`: byte index `n` is a char
boundary when it equals the byte length or the byte at `n` is not a
UTF-8 continuation byte (`b < 128 || b >= 192`); past the end it is
not.  Stated on the character sequence: `n` is a boundary exactly when
it lands between character encodings (a continuation byte is any byte
after the first of a character's encoding). -/
def isCharBoundary : List Char → Nat → Bool
  | [], n => n == 0
  | c :: cs, n =>
      if n == 0 then true
      else if n < c.utf8Size then false
      else isCharBoundary cs (n - c.utf8Size)

/-- Byte-level suffix of a string: `&s[b..]` for a boundary `b`. -/
def dropBytes : List Char → Nat → List Char
  | s, 0 => s
  | [], _ => []
  | c :: cs, n + 1 => dropBytes cs (n + 1 - c.utf8Size)

/-- Byte-level prefix of a string: `&s[..k]` for a boundary `k`. -/
def takeBytes : List Char → Nat → List Char
  | _, 0 => []
  | [], _ => []
  | c :: cs, n + 1 => c :: takeBytes cs (n + 1 - c.utf8Size)

/-- `fn_slice` (the `slice` primitive, arity `Exact(3)`): half-open
subsequence `[begin, end)` of a list or string; `Unit` admits only the
empty slice; on strings both bounds must be char boundaries. -/
def fn_slice {F : Type} (v0 i1 i2 : Value F) : Except ExecErr (Value F) := do
  let b ← usizeFromValue i1
  let e ← usizeFromValue i2
  if e < b then .error (.invalidSlice b e)
  else
    match v0 with
    | .unit =>
        if b > 0 then .error (.outOfBounds b)
        else if e > 0 then .error (.outOfBounds e)
        else .ok .unit
    | .list li =>
        let n := li.length
        if b > n then .error (.outOfBounds b)
        else if e > n then .error (.outOfBounds e)
        else .ok (valueOfVec ((li.drop b).take (e - b)))
    | .string s =>
        let n := byteLen s
        if b > n then .error (.outOfBounds b)
        else if e > n then .error (.outOfBounds e)
        else if !(isCharBoundary s b) then .error (.notCharBoundary b)
        else if !(isCharBoundary s e) then .error (.notCharBoundary e)
        else .ok (.string (takeBytes (dropBytes s b) (e - b)))
    | v => .error (.expectedKind "list or string" v.typeName)

/-- Outcome of a primitive that contains a potentially panicking
operation (slice indexing / `Option::unwrap`): either a returned value,
a returned error, or a Rust panic. -/
inductive FnOutcome (F : Type) where
  | ok (v : Value F)
  | err (e : ExecErr)
  | panicked

/-- `fn_first` (the `first` primitive, arity `Exact(1)`): the `li[0]`
indexing panics on an empty list payload, which the source comments is
impossible because a `List` value is never empty. -/
def fn_first {F : Type} (v0 : Value F) : FnOutcome F :=
  match v0 with
  | .list li =>
      match li with
      | v :: _ => .ok v
      | [] => .panicked
  | v => .err (.expectedKind "list" v.typeName)

/-- `fn_last` (the `last` primitive, arity `Exact(1)`): the
`li.last().cloned().unwrap()` panics on an empty list payload. -/
def fn_last {F : Type} (v0 : Value F) : FnOutcome F :=
  match v0 with
  | .list li =>
      match li.getLast? with
      | some v => .ok v
      | none => .panicked
  | v => .err (.expectedKind "list" v.typeName)

/-! ## Auxiliary definitions for stating the claims -/

/-- The `.=` argument slice corresponding to a list of keyword/value
pairs: `:k1 v1 :k2 v2 …`. -/
def kwargsToArgs {F : Type} : List (KName × Value F) → List (Value F)
  | [] => []
  | (k, v) :: rest => .keyword k :: v :: kwargsToArgs rest

/-- The accumulated effect of `.=`'s sequential field updates. -/
def applyKwargs {F : Type} (fields : NameMap (Value F)) :
    List (KName × Value F) → NameMap (Value F)
  | [] => fields
  | (k, v) :: rest => applyKwargs (nmInsert fields k v) rest

/-- The value of the last keyword/value pair naming `n`, if any. -/
def lastAssign {F : Type} : List (KName × Value F) → KName → Option (Value F)
  | [], _ => none
  | (k, v) :: rest, n =>
      match lastAssign rest n with
      | some w => some w
      | none => if k == n then some v else none

/-- A concrete importing namespace used to witness the import claims. -/
def importWitnessSelf : KNamespace Nat Nat Nat :=
  ⟨[("z", 0)], [("z", 5)], [("z", 9)], none, []⟩

/-- A concrete source namespace exporting `a` (present in its values)
and `b` (absent), and privately holding `q`. -/
def importWitnessOther : KNamespace Nat Nat Nat :=
  ⟨[("a", 1), ("p", 2)], [], [("a", 10), ("q", 11)], some ["a", "b"], []⟩

/-- A concrete `point {x: integer, y: integer}` definition for the C8
witness. -/
def pointDef : StructDefData :=
  ⟨"point", [("x", "integer"), ("y", "integer")]⟩

/-- A concrete `point` instance with `x = 1`, `y = 2`. -/
def pointFields : NameMap (Value Unit) :=
  [("x", .integer 1), ("y", .integer 2)]

/-! ## Theorems -/

/-- C1.  The claim states that `//` rounds toward negative infinity,
with `(// -10 3)` returning `Integer(-4)`.  The code instead truncates
for integer operands: `floor_div_number_step` divides with the
`Integer` (`BigInt`) division, which rounds toward zero, and the final
`floor_number` is the identity on integers, so `(// 10 3)` is
`Integer(3)` as claimed but `(// -10 3)` is `Integer(-3)`, contradicting
the claim and `fn_floor_div`'s own doc comment. -/
theorem floor_div_truncates_on_integers :
    fn_floor_div (F := Unit) (.integer 10) [.integer 3] = .ok (.integer 3)
    ∧ fn_floor_div (F := Unit) (.integer (-10)) [.integer 3]
        = .ok (.integer (-3)) :=
  ⟨rfl, rfl⟩

/-- C2.  For integer operands, `/` fails with `DivideByZero` on a zero
divisor, returns `Integer(a/b)` when the division is exact and the
exact `Ratio` `a/b` otherwise; for two float operands it always
succeeds with the (IEEE-total) float quotient, even on a zero
divisor. -/
theorem div_number_int_exact_ratio_float_total {F : Type} [FloatOps F]
    (a b : Int) (x y : F) :
    div_number (F := F) (.integer a) (.integer b)
      = (if b = 0 then .error .divideByZero
         else if b ∣ a then .ok (.integer (a / b))
         else .ok (.ratio ((a : Rat) / (b : Rat))))
    ∧ div_number (.float x) (.float y) = .ok (.float (FloatOps.fdiv x y)) := by
  constructor
  · simp only [div_number, coerceNumbers, bind, Except.bind]
    by_cases hb : b = 0
    · simp [hb]
    · by_cases hd : b ∣ a
      · simp [hb, hd, isMultipleOf, Int.tmod_eq_zero_of_dvd hd,
          Int.tdiv_eq_ediv_of_dvd hd]
      · have hm : a.tmod b ≠ 0 := fun h => hd (Int.dvd_of_tmod_eq_zero h)
        simp [hb, hd, isMultipleOf, hm, ratioNew]
  · rfl

/-- Witness for C2 at concrete inputs: `(/ 10 0)` is a `DivideByZero`
error, `(/ 10 3)` is the exact ratio `10/3`, and `(/ 10 2)` is the
integer `5`. -/
theorem div_number_int_exact_ratio_float_total_witness :
    div_number (F := Unit) (.integer 10) (.integer 0) = .error .divideByZero
    ∧ div_number (F := Unit) (.integer 10) (.integer 3)
        = .ok (.ratio ((10 : Rat) / (3 : Rat)))
    ∧ div_number (F := Unit) (.integer 10) (.integer 2)
        = .ok (.integer 5) := by
  refine ⟨?_, ?_, ?_⟩
  · rw [(div_number_int_exact_ratio_float_total (F := Unit) 10 0 () ()).1]
    norm_num
  · rw [(div_number_int_exact_ratio_float_total (F := Unit) 10 3 () ()).1]
    norm_num
  · rw [(div_number_int_exact_ratio_float_total (F := Unit) 10 2 () ()).1]
    norm_num

/-- `Ratio::new(p^e, q^e)` on a normalised rational equals `(p/q)^e`. -/
theorem ratioNew_pow (q : Rat) (e : Nat) :
    ratioNew (q.num ^ e) ((q.den : Int) ^ e) = q ^ e := by
  unfold ratioNew
  push_cast
  rw [← div_pow, Rat.num_div_den]

/-- C3 (amended).  For a `Ratio` base and a non-negative integer
exponent `n` (or an integer-valued `Ratio` exponent) that fits in
`usize`, `^` returns the exact ratio `p^n / q^n`; an exponent beyond
`usize::MAX` fails with `Overflow`, and a negative integer or
non-integer exponent falls back to float `powf` with overflow checks
during the conversions. -/
theorem pow_ratio_int_exact_and_fallback {F : Type} [FloatOps F]
    (q b : Rat) (n m : Int) :
    (0 ≤ n → n ≤ (USIZE_MAX : Int) →
      pow_number (F := F) (.ratio q) (.integer n)
        = .ok (.ratio (q ^ n.toNat)))
    ∧ (b.den = 1 → 0 ≤ b.num → b.num ≤ (USIZE_MAX : Int) →
      pow_number (F := F) (.ratio q) (.ratio b)
        = .ok (.ratio (q ^ b.num.toNat)))
    ∧ (m < 0 →
        pow_number (F := F) (.ratio q) (.integer m)
          = (match FloatOps.ofRatio (F := F) q with
             | none => .error .overflow
             | some lf =>
                 match FloatOps.ofInt (F := F) m with
                 | none => .error .overflow
                 | some rf => .ok (.float (FloatOps.fpow lf rf))))
    ∧ (b.den ≠ 1 →
        pow_number (F := F) (.ratio q) (.ratio b)
          = (match FloatOps.ofRatio (F := F) q with
             | none => .error .overflow
             | some lf =>
                 match FloatOps.ofRatio (F := F) b with
                 | none => .error .overflow
                 | some rf => .ok (.float (FloatOps.fpow lf rf)))) := by
  refine ⟨?_, ?_, ?_, ?_⟩
  · intro h0 hmax
    simp only [pow_number, pow_ratio_integer, toUsize,
      if_neg (not_lt.2 h0), if_pos (And.intro h0 hmax), ratioNew_pow]
  · intro hden h0 hmax
    have hint : b.isInt = true := by
      simp [Rat.isInt, hden]
    simp only [pow_number, hint, if_pos, pow_ratio_integer, toUsize,
      if_neg (not_lt.2 h0), if_pos (And.intro h0 hmax), ratioNew_pow]
  · intro hm
    simp only [pow_number, pow_ratio_integer, if_pos hm]
  · intro hden
    have hint : b.isInt = false := by
      simp [Rat.isInt, hden]
    simp only [pow_number, hint, if_neg, pow_number_general, coerceNumbers,
      bind, Except.bind]
    rfl

/-- Counterexample to C3 as stated: for the non-negative integer
exponent `2^64` (which exceeds `usize::MAX`), `^` on a ratio base does
not return the exact power but fails with `Overflow` in the
`to_usize` conversion. -/
theorem pow_ratio_huge_exponent_overflows :
    pow_number (F := Unit) (.ratio 2) (.integer (2 ^ 64))
      = .error .overflow := by
  simp only [pow_number, pow_ratio_integer, toUsize]
  norm_num [USIZE_MAX]

/-- Witness for C3 at the claim's example: `(^ (rat 1 2) 3)` is the
exact `Ratio(1/8)`. -/
theorem pow_ratio_int_exact_witness :
    (0 : Int) ≤ 3
    ∧ pow_number (F := Unit) (.ratio (1 / 2)) (.integer 3)
        = .ok (.ratio (((1 : Rat) / 2) ^ (3 : Int).toNat))
    ∧ ((1 : Rat) / 2) ^ (3 : Int).toNat = 1 / 8 := by
  refine ⟨by norm_num, ?_,
    by norm_num [show (3 : Int).toNat = 3 from rfl]⟩
  exact (pow_ratio_int_exact_and_fallback (F := Unit) (1/2) 1 3 (-1)).1
    (by norm_num) (by norm_num [USIZE_MAX])

/-- C4.  During `parse_expr`: a `Comma` or `CommaAt` token arriving with
a non-positive `total_backticks` counter fails with `UnbalancedComma`;
an `End` token fails with `MissingCloseParen` when a `Parens` group is
still on the group stack and with `UnexpectedEof` otherwise; a
`RightParen` token with an empty group stack fails with
`UnmatchedParen`. -/
theorem parse_error_cases {F : Type} (toks : List (Token F))
    (stack : List (PGroup F)) (tb : Int) :
    (tb ≤ 0 → parseLoop (.comma :: toks) stack tb = .error .unbalancedComma)
    ∧ (tb ≤ 0 → parseLoop (.commaAt :: toks) stack tb = .error .unbalancedComma)
    ∧ (stack.any PGroup.isParens = true →
        parseLoop (.ending :: toks) stack tb = .error .missingCloseParen)
    ∧ (stack.any PGroup.isParens = false →
        parseLoop (.ending :: toks) stack tb = .error .unexpectedEof)
    ∧ parseLoop (.rightParen :: toks) [] tb = .error .unmatchedParen := by
  refine ⟨?_, ?_, ?_, ?_, ?_⟩
  · intro h
    simp only [parseLoop, if_pos h]
  · intro h
    simp only [parseLoop, if_pos h]
  · intro h
    simp only [parseLoop, endResult, h, if_pos]
  · intro h
    simp only [parseLoop, endResult, h]
    rfl
  · rfl

/-- Witness for C4, mirroring the repository's own parser tests:
`,` at top level, `(` at end of input, a dangling backquote at end of
input, and a stray `)`. -/
theorem parse_error_cases_witness :
    ((0 : Int) ≤ 0)
    ∧ parseLoop (F := Unit) [.comma] [] 0 = .error .unbalancedComma
    ∧ parseLoop (F := Unit) [.ending] [.parens []] 0
        = .error .missingCloseParen
    ∧ parseLoop (F := Unit) [.ending] [.backticks 1] 0
        = .error .unexpectedEof
    ∧ parseLoop (F := Unit) [.rightParen] [] 0 = .error .unmatchedParen := by
  refine ⟨le_refl 0, ?_, ?_, ?_, ?_⟩
  · exact (parse_error_cases [] [] 0).1 (le_refl 0)
  · exact (parse_error_cases [] [.parens []] 0).2.2.1 rfl
  · exact (parse_error_cases [] [.backticks 1] 0).2.2.2.1 rfl
  · exact (parse_error_cases [] [] 0).2.2.2.2

/-- C5.  Parsing ``(foo `(a ,b ,@c))`` produces the two-element list
`[Name(foo), Quasiquote([Name(a), Comma(Name(b),1), CommaAt(Name(c),1)], 1)]`,
with the backquote wrapping the following complete expression at depth 1
and each comma / comma-at wrapping its following expression at
depth 1. -/
theorem parse_quasiquote_comma_example :
    parseExpr (F := Unit)
      [.leftParen, .name "foo", .backQuote, .leftParen, .name "a",
       .comma, .name "b", .commaAt, .name "c", .rightParen, .rightParen]
      = .ok (.list [.name "foo",
          .quasiquote (.list [.name "a", .comma (.name "b") 1,
            .commaAt (.name "c") 1]) 1], []) :=
  rfl

/-- The byte length of a cons cell. -/
theorem byteLen_cons (c : Char) (cs : List Char) :
    byteLen (c :: cs) = c.utf8Size + byteLen cs := by
  simp [byteLen]

/-- A char boundary never lies past the end of the string. -/
theorem isCharBoundary_le (s : List Char) (k : Nat)
    (hb : isCharBoundary s k = true) : k ≤ byteLen s := by
  induction s generalizing k with
  | nil =>
      have : k = 0 := by simpa [isCharBoundary] using hb
      simp [this]
  | cons c cs ih =>
      cases Nat.eq_zero_or_pos k with
      | inl h0 => simp [h0]
      | inr hpos =>
          have hk : k ≠ 0 := Nat.pos_iff_ne_zero.1 hpos
          have hsz : ¬ (k < c.utf8Size) := by
            by_contra h
            simp [isCharBoundary, hk, h] at hb
          have hb' : isCharBoundary cs (k - c.utf8Size) = true := by
            simpa [isCharBoundary, hk, hsz] using hb
          have := ih _ hb'
          rw [byteLen_cons]
          omega

/-- Slicing a prefix at a char boundary keeps exactly that many
bytes. -/
theorem takeBytes_byteLen (s : List Char) (k : Nat)
    (hb : isCharBoundary s k = true) : byteLen (takeBytes s k) = k := by
  induction s generalizing k with
  | nil =>
      have : k = 0 := by simpa [isCharBoundary] using hb
      subst this
      simp [takeBytes, byteLen]
  | cons c cs ih =>
      cases k with
      | zero => simp [takeBytes, byteLen]
      | succ k =>
          have hsz : ¬ (k + 1 < c.utf8Size) := by
            by_contra h
            simp [isCharBoundary, h] at hb
          have hb' : isCharBoundary cs (k + 1 - c.utf8Size) = true := by
            simpa [isCharBoundary, hsz] using hb
          have hle : c.utf8Size ≤ k + 1 := Nat.not_lt.1 hsz
          have := ih _ hb'
          simp only [takeBytes, byteLen_cons, this]
          omega

/-- Dropping up to a char boundary turns a later boundary `j` into the
boundary `j - i` of the suffix. -/
theorem dropBytes_boundary (s : List Char) (i j : Nat)
    (hi : isCharBoundary s i = true) (hj : isCharBoundary s j = true)
    (hij : i ≤ j) : isCharBoundary (dropBytes s i) (j - i) = true := by
  induction s generalizing i j with
  | nil =>
      have hi0 : i = 0 := by simpa [isCharBoundary] using hi
      have hj0 : j = 0 := by simpa [isCharBoundary] using hj
      subst hi0; subst hj0
      simp [dropBytes, isCharBoundary]
  | cons c cs ih =>
      cases i with
      | zero => simpa [dropBytes] using hj
      | succ i =>
          have hsz : ¬ (i + 1 < c.utf8Size) := by
            by_contra h
            simp [isCharBoundary, h] at hi
          have hle : c.utf8Size ≤ i + 1 := Nat.not_lt.1 hsz
          have hi' : isCharBoundary cs (i + 1 - c.utf8Size) = true := by
            simpa [isCharBoundary, hsz] using hi
          have hj0 : j ≠ 0 := by omega
          have hszj : ¬ (j < c.utf8Size) := by omega
          have hj' : isCharBoundary cs (j - c.utf8Size) = true := by
            simpa [isCharBoundary, hj0, hszj] using hj
          have hstep : dropBytes (c :: cs) (i + 1)
              = dropBytes cs (i + 1 - c.utf8Size) := by
            simp [dropBytes]
          rw [hstep]
          have harith : j - (i + 1)
              = (j - c.utf8Size) - (i + 1 - c.utf8Size) := by omega
          rw [harith]
          exact ih _ _ hi' hj' (by omega)

/-- Extracting an in-range `usize` index argument succeeds. -/
theorem usizeFromValue_natCast {F : Type} (i : Nat) (h : i ≤ USIZE_MAX) :
    usizeFromValue (F := F) (.integer (i : Int)) = .ok i := by
  have h1 : (0 : Int) ≤ (i : Int) := Int.natCast_nonneg i
  have h2 : (i : Int) ≤ (USIZE_MAX : Int) := by exact_mod_cast h
  simp [usizeFromValue, toUsize, if_pos (And.intro h1 h2), h]

/-- `slice` on a list with `i ≤ j ≤ len` succeeds with a result of
length `j - i` (the empty result being `Unit`, of length 0). -/
theorem slice_list_len {F : Type} [FloatOps F] (li : List (Value F))
    (i j : Nat) (hij : i ≤ j) (hj : j ≤ li.length) (hmax : j ≤ USIZE_MAX) :
    ∃ v, fn_slice (.list li) (.integer (i : Int)) (.integer (j : Int)) = .ok v
      ∧ fn_len v = .ok (.integer ((j - i : Nat) : Int)) := by
  have hi : i ≤ USIZE_MAX := le_trans hij hmax
  refine ⟨valueOfVec ((li.drop i).take (j - i)), ?_, ?_⟩
  · simp only [fn_slice, usizeFromValue_natCast i hi,
      usizeFromValue_natCast j hmax, bind, Except.bind]
    rw [if_neg (by omega : ¬ j < i)]
    rw [if_neg (by omega : ¬ i > li.length),
        if_neg (by omega : ¬ j > li.length)]
  · by_cases h0 : j - i = 0
    · have hemp : (li.drop i).take (j - i) = [] := by simp [h0]
      simp [valueOfVec, hemp, fn_len, h0]
    · have hlen : ((li.drop i).take (j - i)).length = j - i := by
        simp only [List.length_take, List.length_drop]
        omega
      have hne : (li.drop i).take (j - i) ≠ [] := by
        intro hemp
        rw [hemp] at hlen
        simp at hlen
        omega
      obtain ⟨a, as, hcons⟩ := List.exists_cons_of_ne_nil hne
      rw [hcons]
      show fn_len (.list (a :: as)) = _
      rw [← hcons]
      simp [fn_len, hlen]

/-- `slice` on a string with `i ≤ j ≤ byte length` and both bounds on
char boundaries succeeds with a result of byte length `j - i`. -/
theorem slice_string_len {F : Type} [FloatOps F] (s : List Char) (i j : Nat)
    (hij : i ≤ j) (hj : j ≤ byteLen s) (hmax : j ≤ USIZE_MAX)
    (hbi : isCharBoundary s i = true) (hbj : isCharBoundary s j = true) :
    ∃ v, fn_slice (F := F) (.string s) (.integer (i : Int))
          (.integer (j : Int)) = .ok v
      ∧ fn_len v = .ok (.integer ((j - i : Nat) : Int)) := by
  refine ⟨.string (takeBytes (dropBytes s i) (j - i)), ?_, ?_⟩
  · simp only [fn_slice, usizeFromValue_natCast i (le_trans hij hmax),
      usizeFromValue_natCast j hmax, bind, Except.bind]
    rw [if_neg (by omega : ¬ j < i)]
    rw [if_neg (by omega : ¬ i > byteLen s),
        if_neg (by omega : ¬ j > byteLen s)]
    simp [hbi, hbj]
  · have hb' : isCharBoundary (dropBytes s i) (j - i) = true :=
      dropBytes_boundary s i j hbi hbj hij
    simp [fn_len, takeBytes_byteLen _ _ hb']

/-- `slice` on `Unit` with both bounds 0 succeeds with `Unit`. -/
theorem slice_unit_empty {F : Type} [FloatOps F] :
    fn_slice (F := F) .unit (.integer 0) (.integer 0) = .ok .unit := rfl

/-- C6.  `slice(s, i, j)` with `0 ≤ i ≤ j ≤ len(s)` (and, for strings,
both bounds on char boundaries) succeeds, and the length of the result
is `j - i`; `Unit` counts as the empty sequence, so `slice((), 0, 0)`
is `Unit`.  Indices are additionally bounded by `usize::MAX`, which any
actual Rust sequence length satisfies. -/
theorem slice_len_spec {F : Type} [FloatOps F] (li : List (Value F))
    (s : List Char) (i j : Nat) :
    (i ≤ j → j ≤ li.length → j ≤ USIZE_MAX →
      ∃ v, fn_slice (.list li) (.integer (i : Int)) (.integer (j : Int))
            = .ok v
        ∧ fn_len v = .ok (.integer ((j - i : Nat) : Int)))
    ∧ (i ≤ j → j ≤ byteLen s → j ≤ USIZE_MAX →
        isCharBoundary s i = true → isCharBoundary s j = true →
      ∃ v, fn_slice (F := F) (.string s) (.integer (i : Int))
            (.integer (j : Int)) = .ok v
        ∧ fn_len v = .ok (.integer ((j - i : Nat) : Int)))
    ∧ fn_slice (F := F) .unit (.integer 0) (.integer 0) = .ok .unit :=
  ⟨fun hij hj hmax => slice_list_len li i j hij hj hmax,
   fun hij hj hmax hbi hbj => slice_string_len s i j hij hj hmax hbi hbj,
   slice_unit_empty⟩

/-- Witness for C6: slicing `(7 8 9)` over `[1, 3)` gives a length-2
result, and slicing the string `"hél"` (bytes `h`=1, `é`=2, `l`=1) over
the boundary range `[1, 4)` gives a 3-byte result. -/
theorem slice_len_spec_witness :
    ((1 : Nat) ≤ 3 ∧ isCharBoundary ['h', 'é', 'l'] 1 = true)
    ∧ (∃ v, fn_slice (F := Unit)
          (.list [.integer 7, .integer 8, .integer 9])
          (.integer 1) (.integer 3) = .ok v
        ∧ fn_len v = .ok (.integer 2))
    ∧ (∃ v, fn_slice (F := Unit) (.string ['h', 'é', 'l'])
          (.integer 1) (.integer 4) = .ok v
        ∧ fn_len v = .ok (.integer 3)) := by
  refine ⟨⟨by decide, by decide⟩, ?_, ?_⟩
  · exact (slice_len_spec (F := Unit) [.integer 7, .integer 8, .integer 9]
      [] 1 3).1 (by decide) (by decide) (by decide)
  · exact (slice_len_spec (F := Unit) [] ['h', 'é', 'l'] 1 4).2.1
      (by decide) (by decide) (by decide) (by decide) (by decide)

/-- Looking up the key just inserted yields the inserted value. -/
theorem nmGet_insert_self {V : Type} (m : NameMap V) (k : KName) (v : V) :
    nmGet (nmInsert m k v) k = some v := by
  induction m with
  | nil => simp [nmInsert, nmGet]
  | cons kv rest ih =>
      obtain ⟨k', v'⟩ := kv
      by_cases h : k' = k
      · simp [nmInsert, nmGet, h]
      · simp [nmInsert, nmGet, h, ih]

/-- Insertion leaves every other key's binding unchanged. -/
theorem nmGet_insert_ne {V : Type} (m : NameMap V) (k k' : KName) (v : V)
    (h : k' ≠ k) : nmGet (nmInsert m k v) k' = nmGet m k' := by
  have hkk : ¬ (k = k') := fun e => h (Eq.symm e)
  induction m with
  | nil => simp [nmInsert, nmGet, hkk]
  | cons kv rest ih =>
      obtain ⟨k0, v0⟩ := kv
      by_cases h0 : k0 = k
      · subst h0
        simp [nmInsert, nmGet, hkk]
      · simp only [nmInsert]
        rw [if_neg (by simpa using h0)]
        simp only [nmGet]
        by_cases h1 : k0 = k'
        · simp [h1]
        · rw [if_neg (by simpa using h1), if_neg (by simpa using h1)]
          exact ih

/-- A name outside the iterated exports is untouched by the import
loop, and ends up among the returned names only if it started there. -/
theorem importLoop_not_mem {V : Type} (src : NameMap V) (n : KName) :
    ∀ (ns : List KName), n ∉ ns →
    ∀ (tgt : NameMap V) (names : List KName),
    nmGet (importLoop src tgt names ns).1 n = nmGet tgt n
    ∧ (n ∈ (importLoop src tgt names ns).2 ↔ n ∈ names) := by
  intro ns
  induction ns with
  | nil =>
      intro _ tgt names
      simp [importLoop]
  | cons m ms ih =>
      intro h tgt names
      have hne : n ≠ m := fun e => h (by simp [e])
      have hms : n ∉ ms := fun e => h (by simp [e])
      cases hsrc : nmGet src m with
      | some v =>
          simp only [importLoop, hsrc]
          have hrec := ih hms (nmInsert tgt m v) (names ++ [m])
          refine ⟨hrec.1.trans (nmGet_insert_ne _ _ _ _ hne), ?_⟩
          rw [hrec.2]
          simp [hne]
      | none =>
          simp only [importLoop, hsrc]
          exact ih hms tgt names

/-- An exported name absent from the source map is silently skipped by
the import loop: the target binding is unchanged and the name is not
reported as imported. -/
theorem importLoop_absent {V : Type} (src : NameMap V) (n : KName)
    (h : nmGet src n = none) :
    ∀ (ns : List KName) (tgt : NameMap V) (names : List KName),
    n ∉ names →
    nmGet (importLoop src tgt names ns).1 n = nmGet tgt n
    ∧ n ∉ (importLoop src tgt names ns).2 := by
  intro ns
  induction ns with
  | nil =>
      intro tgt names hn
      simpa [importLoop] using hn
  | cons m ms ih =>
      intro tgt names hn
      by_cases hm : m = n
      · subst hm
        simp only [importLoop, h]
        exact ih tgt names hn
      · have hnm : n ≠ m := fun e => hm (Eq.symm e)
        cases hsrc : nmGet src m with
        | some v =>
            simp only [importLoop, hsrc]
            have hn' : n ∉ names ++ [m] := by
              simp [hn, hnm]
            have hrec := ih (nmInsert tgt m v) (names ++ [m]) hn'
            exact ⟨hrec.1.trans (nmGet_insert_ne _ _ _ _ hnm), hrec.2⟩
        | none =>
            simp only [importLoop, hsrc]
            exact ih tgt names hn

/-- An exported name present in the source map ends up bound to the
source's value after the import loop. -/
theorem importLoop_mem {V : Type} (src : NameMap V) (n : KName) (v : V)
    (h : nmGet src n = some v) :
    ∀ (ns : List KName), n ∈ ns →
    ∀ (tgt : NameMap V) (names : List KName),
    nmGet (importLoop src tgt names ns).1 n = some v := by
  intro ns
  induction ns with
  | nil =>
      intro hn
      cases hn
  | cons m ms ih =>
      intro hn tgt names
      by_cases hm : n ∈ ms
      · cases hsrc : nmGet src m with
        | some w =>
            simp only [importLoop, hsrc]
            exact ih hm _ _
        | none =>
            simp only [importLoop, hsrc]
            exact ih hm _ _
      · have hmn : m = n := by
          rcases List.mem_cons.1 hn with h1 | h2
          · exact h1.symm
          · exact absurd h2 hm
        subst hmn
        simp only [importLoop, h]
        rw [(importLoop_not_mem src m ms hm _ _).1]
        exact nmGet_insert_self _ _ _

/-- C7.  The bulk imports copy only bindings whose name is in the
source namespace's exports set: with no exports set (`None`) nothing is
imported; a name outside the exports set keeps its binding in the
target; an exported name absent from the source's map is silently
skipped; and an exported, present name is copied with the source's
value. -/
theorem import_all_reads_exports_only {C M V : Type}
    (self other : KNamespace C M V) (exps : List KName) (n : KName) :
    (other.exports = none →
        importAllConstants self other = (self, [])
        ∧ importAllMacros self other = (self, [])
        ∧ importAllValues self other = (self, []))
    ∧ (other.exports = some exps → n ∉ exps →
        nmGet (importAllConstants self other).1.constants n
          = nmGet self.constants n
        ∧ nmGet (importAllMacros self other).1.macros n
          = nmGet self.macros n
        ∧ nmGet (importAllValues self other).1.values n
          = nmGet self.values n)
    ∧ (other.exports = some exps → nmGet other.constants n = none →
        nmGet (importAllConstants self other).1.constants n
          = nmGet self.constants n
        ∧ n ∉ (importAllConstants self other).2)
    ∧ (other.exports = some exps → nmGet other.macros n = none →
        nmGet (importAllMacros self other).1.macros n
          = nmGet self.macros n
        ∧ n ∉ (importAllMacros self other).2)
    ∧ (other.exports = some exps → nmGet other.values n = none →
        nmGet (importAllValues self other).1.values n
          = nmGet self.values n
        ∧ n ∉ (importAllValues self other).2)
    ∧ (other.exports = some exps → n ∈ exps →
        (∀ c, nmGet other.constants n = some c →
          nmGet (importAllConstants self other).1.constants n = some c)
        ∧ (∀ mc, nmGet other.macros n = some mc →
          nmGet (importAllMacros self other).1.macros n = some mc)
        ∧ (∀ v, nmGet other.values n = some v →
          nmGet (importAllValues self other).1.values n = some v)) := by
  refine ⟨?_, ?_, ?_, ?_, ?_, ?_⟩
  · intro h
    exact ⟨by simp [importAllConstants, h], by simp [importAllMacros, h],
      by simp [importAllValues, h]⟩
  · intro h hn
    simp only [importAllConstants, importAllMacros, importAllValues, h]
    exact ⟨(importLoop_not_mem other.constants n exps hn _ _).1,
      (importLoop_not_mem other.macros n exps hn _ _).1,
      (importLoop_not_mem other.values n exps hn _ _).1⟩
  · intro h habs
    simp only [importAllConstants, h]
    exact importLoop_absent other.constants n habs exps _ _
      (List.not_mem_nil n)
  · intro h habs
    simp only [importAllMacros, h]
    exact importLoop_absent other.macros n habs exps _ _
      (List.not_mem_nil n)
  · intro h habs
    simp only [importAllValues, h]
    exact importLoop_absent other.values n habs exps _ _
      (List.not_mem_nil n)
  · intro h hmem
    refine ⟨?_, ?_, ?_⟩
    · intro c hc
      simp only [importAllConstants, h]
      exact importLoop_mem other.constants n c hc exps hmem _ _
    · intro mc hmc
      simp only [importAllMacros, h]
      exact importLoop_mem other.macros n mc hmc exps hmem _ _
    · intro v hv
      simp only [importAllValues, h]
      exact importLoop_mem other.values n v hv exps hmem _ _

/-- Witness for C7: the private value `q` is not imported, the exported
but absent `b` is skipped, and the exported value `a` is copied. -/
theorem import_all_reads_exports_only_witness :
    importWitnessOther.exports = some ["a", "b"]
    ∧ nmGet (importAllValues importWitnessSelf importWitnessOther).1.values
        "q" = nmGet importWitnessSelf.values "q"
    ∧ (nmGet (importAllValues importWitnessSelf importWitnessOther).1.values
          "b" = nmGet importWitnessSelf.values "b"
        ∧ "b" ∉ (importAllValues importWitnessSelf importWitnessOther).2)
    ∧ nmGet (importAllValues importWitnessSelf importWitnessOther).1.values
        "a" = some 10 := by
  refine ⟨rfl, ?_, ?_, ?_⟩
  · exact ((import_all_reads_exports_only importWitnessSelf
      importWitnessOther ["a", "b"] "q").2.1 rfl (by decide)).2.2
  · exact (import_all_reads_exports_only importWitnessSelf
      importWitnessOther ["a", "b"] "b").2.2.2.2.1 rfl rfl
  · exact ((import_all_reads_exports_only importWitnessSelf
      importWitnessOther ["a", "b"] "a").2.2.2.2.2 rfl
      (by decide)).2.2 10 rfl

/-- C9.  The chained comparison primitives stop at the first argument
pair that decides the result false, so later arguments are never
examined and cannot raise type errors; in particular
`(= 1 2 "x")` is `Bool(false)` rather than a `TypeMismatch` error. -/
theorem comparisons_short_circuit {F : Type} [FloatOps F] (a b : Value F)
    (rest : List (Value F)) (o : Ordering) :
    (isEqual a b = .ok false → fn_eq a (b :: rest) = .ok (.bool false))
    ∧ (isEqual a b = .ok true → fn_ne a (b :: rest) = .ok (.bool false))
    ∧ (compareVal a b = .ok o → o ≠ .lt →
        fn_lt a (b :: rest) = .ok (.bool false))
    ∧ (compareVal a b = .ok o → o ≠ .gt →
        fn_gt a (b :: rest) = .ok (.bool false))
    ∧ (compareVal a b = .ok .gt → fn_le a (b :: rest) = .ok (.bool false))
    ∧ (compareVal a b = .ok .lt → fn_ge a (b :: rest) = .ok (.bool false))
    ∧ fn_eq (F := F) (.integer 1) [.integer 2, .string ['x']]
        = .ok (.bool false) := by
  refine ⟨?_, ?_, ?_, ?_, ?_, ?_, ?_⟩
  · intro h; simp [fn_eq, eqLoop, h, bind, Except.bind]
  · intro h; simp [fn_ne, neOuter, neInner, h, bind, Except.bind]
  · intro h ho
    cases o with
    | lt => exact absurd rfl ho
    | eq => simp only [fn_lt, ltLoop, bind, Except.bind, h]; rfl
    | gt => simp only [fn_lt, ltLoop, bind, Except.bind, h]; rfl
  · intro h ho
    cases o with
    | gt => exact absurd rfl ho
    | eq => simp only [fn_gt, gtLoop, bind, Except.bind, h]; rfl
    | lt => simp only [fn_gt, gtLoop, bind, Except.bind, h]; rfl
  · intro h
    simp only [fn_le, leLoop, bind, Except.bind, h]; rfl
  · intro h
    simp only [fn_ge, geLoop, bind, Except.bind, h]; rfl
  · rfl

/-- Witness for C9 at concrete inputs: the first pair `1, 2` decides
`=` false and `<` (with first pair `3, 2`) false, and the later string
argument raises no error. -/
theorem comparisons_short_circuit_witness :
    isEqual (F := Unit) (.integer 1) (.integer 2) = .ok false
    ∧ fn_eq (F := Unit) (.integer 1) [.integer 2, .string ['x']]
        = .ok (.bool false)
    ∧ fn_lt (F := Unit) (.integer 3) [.integer 2, .string ['x']]
        = .ok (.bool false) := by
  refine ⟨rfl, ?_, ?_⟩
  · exact (comparisons_short_circuit (F := Unit) (.integer 1) (.integer 2)
      [.string ['x']] .eq).2.2.2.2.2.2
  · exact (comparisons_short_circuit (F := Unit) (.integer 3) (.integer 2)
      [.string ['x']] .gt).2.2.1 rfl (by decide)

/-- C10.  Under the invariant that a `List` value holds a non-empty
sequence, `fn_first` and `fn_last` never reach their panicking
branches: they return the first and last element respectively. -/
theorem fn_first_last_nonempty {F : Type} (li : List (Value F))
    (h : li ≠ []) :
    fn_first (.list li) = .ok (li.head h)
    ∧ fn_last (.list li) = .ok (li.getLast h) := by
  cases li with
  | nil => exact absurd rfl h
  | cons a as =>
      exact ⟨rfl, by simp [fn_last, List.getLast?_eq_getLast]⟩

/-- Witness for C10 on the two-element list `(1 2)`. -/
theorem fn_first_last_nonempty_witness :
    ([Value.integer (F := Unit) 1, .integer 2] ≠ [])
    ∧ fn_first (F := Unit) (.list [.integer 1, .integer 2])
        = .ok (.integer 1)
    ∧ fn_last (F := Unit) (.list [.integer 1, .integer 2])
        = .ok (.integer 2) := by
  refine ⟨by simp, ?_, ?_⟩
  · exact (fn_first_last_nonempty (F := Unit)
      [.integer 1, .integer 2] (by simp)).1
  · exact (fn_first_last_nonempty (F := Unit)
      [.integer 1, .integer 2] (by simp)).2

/-- Insertion preserves key membership. -/
theorem nmContains_insert {V : Type} (m : NameMap V) (k n : KName) (v : V)
    (h : nmContains m n = true) : nmContains (nmInsert m k v) n = true := by
  by_cases hk : n = k
  · subst hk
    simp [nmContains, nmGet_insert_self]
  · simpa [nmContains, nmGet_insert_ne m k n v hk] using h

/-- The keyword/value loop of `.=` succeeds when every named field
exists and every new value matches its declared type, producing the
struct with the sequentially updated field map and the same shared
definition. -/
theorem dotEqLoop_spec {F : Type} (sdef : StructDefData)
    (kwargs : List (KName × Value F)) :
    ∀ (fields : NameMap (Value F)),
    (∀ kv ∈ kwargs, nmContains fields kv.1 = true
        ∧ ∃ ty, nmGet sdef.fields kv.1 = some ty
          ∧ value_is kv.2 ty = true) →
    dotEqLoop sdef fields (kwargsToArgs kwargs)
      = .ok (.struct sdef (applyKwargs fields kwargs)) := by
  induction kwargs with
  | nil =>
      intro fields _
      rfl
  | cons kv rest ih =>
      intro fields h
      obtain ⟨k, v⟩ := kv
      obtain ⟨hc, ty, hty, hvis⟩ := h (k, v) (List.mem_cons_self _ _)
      simp only [kwargsToArgs, dotEqLoop, getKeyword, bind, Except.bind,
        hc, hty, hvis, Bool.not_true, Bool.false_eq_true, if_false,
        Bool.not_false, if_true]
      exact ih (nmInsert fields k v) (fun kv' hkv' =>
        ⟨nmContains_insert _ _ _ _ (h kv' (List.mem_cons_of_mem _ hkv')).1,
         (h kv' (List.mem_cons_of_mem _ hkv')).2⟩)

/-- A field not named by any keyword argument is unchanged by the
accumulated update. -/
theorem applyKwargs_not_mem {F : Type} (kwargs : List (KName × Value F))
    (n : KName) (h : n ∉ kwargs.map Prod.fst) :
    ∀ fields, nmGet (applyKwargs fields kwargs) n = nmGet fields n := by
  induction kwargs with
  | nil => intro fields; rfl
  | cons kv rest ih =>
      intro fields
      obtain ⟨k, v⟩ := kv
      have hk : n ≠ k := fun e => h (by simp [e])
      have hr : n ∉ rest.map Prod.fst := fun e => h (by simp [e])
      rw [show applyKwargs fields ((k, v) :: rest)
          = applyKwargs (nmInsert fields k v) rest from rfl]
      rw [ih hr]
      exact nmGet_insert_ne _ _ _ _ hk

/-- A name with no assignment among the keyword arguments is not one of
their keys. -/
theorem lastAssign_none_not_mem {F : Type} (kwargs : List (KName × Value F))
    (n : KName) (h : lastAssign kwargs n = none) :
    n ∉ kwargs.map Prod.fst := by
  induction kwargs with
  | nil => simp
  | cons kv rest ih =>
      obtain ⟨k, v⟩ := kv
      cases hrest : lastAssign rest n with
      | some w => simp [lastAssign, hrest] at h
      | none =>
          have hk : ¬ (k == n) = true := by
            by_contra hkk
            simp [lastAssign, hrest, hkk] at h
          have hkne : n ≠ k := fun e => hk (by simp [e])
          simp [hkne, fun e => hkne (Eq.symm e), ih hrest]

/-- A field named by the keyword arguments ends up holding the value of
its last assignment. -/
theorem applyKwargs_last {F : Type} (kwargs : List (KName × Value F))
    (n : KName) (v : Value F) (h : lastAssign kwargs n = some v) :
    ∀ fields, nmGet (applyKwargs fields kwargs) n = some v := by
  induction kwargs with
  | nil => simp [lastAssign] at h
  | cons kv rest ih =>
      intro fields
      obtain ⟨k, w⟩ := kv
      rw [show applyKwargs fields ((k, w) :: rest)
          = applyKwargs (nmInsert fields k w) rest from rfl]
      cases hrest : lastAssign rest n with
      | some u =>
          have : u = v := by
            simp [lastAssign, hrest] at h
            exact h
          subst this
          exact ih hrest _
      | none =>
          have hk : (k == n) = true ∧ w = v := by
            by_cases hkk : (k == n) = true
            · refine ⟨hkk, ?_⟩
              simp [lastAssign, hrest, hkk] at h
              exact h
            · simp [lastAssign, hrest, hkk] at h
          obtain ⟨hkn, hwv⟩ := hk
          have hkn' : k = n := by simpa using hkn
          rw [hkn', hwv]
          rw [applyKwargs_not_mem rest n (lastAssign_none_not_mem rest n hrest)]
          exact nmGet_insert_self _ _ _

/-- C8.  A successful `.=` call returns a new struct sharing the
definition in which exactly the fields named by the keyword arguments
carry the new values (the last assignment when a field is named twice)
and every other field is unchanged.  The update copies the shared
record on write, so the original struct value is untouched — in this
pure embedding the input `fields` map is returned unmodified inside
`applyKwargs`' reference point, and any other reference to the original
struct still observes the original field values. -/
theorem dot_eq_updates_exactly {F : Type} (sdef : StructDefData)
    (fields : NameMap (Value F)) (kwargs : List (KName × Value F))
    (h : ∀ kv ∈ kwargs, nmContains fields kv.1 = true
        ∧ ∃ ty, nmGet sdef.fields kv.1 = some ty
          ∧ value_is kv.2 ty = true) :
    fn_dot_eq (.struct sdef fields) (kwargsToArgs kwargs)
      = .ok (.struct sdef (applyKwargs fields kwargs))
    ∧ (∀ n, n ∉ kwargs.map Prod.fst →
        nmGet (applyKwargs fields kwargs) n = nmGet fields n)
    ∧ (∀ n v, lastAssign kwargs n = some v →
        nmGet (applyKwargs fields kwargs) n = some v) :=
  ⟨dotEqLoop_spec sdef kwargs fields h,
   fun n hn => applyKwargs_not_mem kwargs n hn fields,
   fun n v hv => applyKwargs_last kwargs n v hv fields⟩

/-- Witness for C8: `(.= p :x 5)` updates `x`, leaves `y` unchanged,
and keeps the definition. -/
theorem dot_eq_updates_exactly_witness :
    fn_dot_eq (F := Unit) (.struct pointDef pointFields)
        [.keyword "x", .integer 5]
      = .ok (.struct pointDef (applyKwargs pointFields [("x", .integer 5)]))
    ∧ nmGet (applyKwargs pointFields [("x", .integer 5)]) "y"
        = nmGet pointFields "y"
    ∧ nmGet (applyKwargs pointFields [("x", .integer 5)]) "x"
        = some (.integer 5) := by
  have h : ∀ kv ∈ [(("x" : KName), (Value.integer (F := Unit) 5))],
      nmContains pointFields kv.1 = true
      ∧ ∃ ty, nmGet pointDef.fields kv.1 = some ty
        ∧ value_is kv.2 ty = true := by
    intro kv hkv
    rw [List.mem_singleton.1 hkv]
    exact ⟨rfl, "integer", rfl, rfl⟩
  refine ⟨?_, ?_, ?_⟩
  · exact (dot_eq_updates_exactly pointDef pointFields
      [("x", .integer 5)] h).1
  · exact (dot_eq_updates_exactly pointDef pointFields
      [("x", .integer 5)] h).2.1 "y" (by decide)
  · exact (dot_eq_updates_exactly pointDef pointFields
      [("x", .integer 5)] h).2.2 "x" (.integer 5) rfl

end KetosModel
